import Mathlib

/-!
Verification of the helios-innovation-tracker repository.

Strings are embedded as `List Char`; the JavaScript string primitives used
by the code (`indexOf`, `substring`, `trim`, `replace` with a string
pattern) are given explicit executable models.  Each definition below is a
direct translation of the named function in the source tree; external
collaborators (the browser URL constructor, the supabase query and storage
services) enter as oracles or as explicit outcome arguments.
-/

namespace Helios

/-- Model of JavaScript `s.indexOf(c)`: index of the first occurrence of the
character `c` in `s`, or `-1` when `c` does not occur.  Used by
`parseDemoLink` in `src/types/database.ts`. -/
def jsIndexOf : List Char → Char → Int
  | [], _ => -1
  | a :: rest, c =>
      if a = c then 0
      else if jsIndexOf rest c = -1 then -1 else jsIndexOf rest c + 1

/-- Model of JavaScript `String.prototype.trim`: drop whitespace from both
ends. -/
def jsTrim (s : List Char) : List Char :=
  ((s.dropWhile Char.isWhitespace).reverse.dropWhile Char.isWhitespace).reverse

/-- Model of JavaScript `s.replace(pat, rep)` with a non-empty string
pattern: replace the first occurrence of `pat` in `s` (scanning left to
right), or return `s` unchanged when `pat` does not occur.  Used by
`getDemoLinkDisplay` for `hostname.replace('www.', '')`. -/
def jsReplaceOnce (pat rep : List Char) : List Char → List Char
  | [] => []
  | a :: rest =>
      if (a :: rest).take pat.length = pat then
        rep ++ (a :: rest).drop pat.length
      else
        a :: jsReplaceOnce pat rep rest

/-- The `DemoLink` interface of `src/types/database.ts`: an optional human
label together with a URL. -/
structure DemoLink where
  label : List Char
  url : List Char
deriving Repr, DecidableEq

/-- Translation of `parseDemoLink` (src/types/database.ts, lines 195-205):
split at the first `|` when it is strictly inside the string, otherwise
return an empty label and the whole input as the url. -/
def parseDemoLink (link : List Char) : DemoLink :=
  if jsIndexOf link '|' > 0 ∧ jsIndexOf link '|' < (link.length : Int) - 1 then
    { label := link.take (jsIndexOf link '|').toNat,
      url := link.drop ((jsIndexOf link '|').toNat + 1) }
  else
    { label := [], url := link }

/-- Translation of `serializeDemoLink` (src/types/database.ts, lines
208-213): emit `label|url` when the label is truthy and trims to a truthy
string, otherwise emit the url alone. -/
def serializeDemoLink (link : DemoLink) : List Char :=
  if link.label ≠ [] ∧ jsTrim link.label ≠ [] then
    link.label ++ '|' :: link.url
  else
    link.url

/-- The string `www.` that `getDemoLinkDisplay` removes from a hostname. -/
def wwwDot : List Char := ['w', 'w', 'w', '.']

/-- Translation of `getDemoLinkDisplay` (src/types/database.ts, lines
216-227).  The browser primitive `new URL(u).hostname` is external to the
repository and is passed in as an oracle `host`: `host u = some h` models a
successful parse with hostname `h`, and `host u = none` models the
constructor throwing. -/
def getDemoLinkDisplay (host : List Char → Option (List Char)) (link : DemoLink) : List Char :=
  if link.label ≠ [] ∧ jsTrim link.label ≠ [] then
    link.label
  else
    match host link.url with
    | some h => jsReplaceOnce wwwDot [] h
    | none => link.url

/-- Index of the first position of `s` at which the pattern `pat` matches,
written as the spec reads it: the least `i` with
`(s.drop i).take pat.length = pat`.  Stated independently of
`jsReplaceOnce`, via a search over all candidate positions. -/
def firstMatchIdx (pat s : List Char) : Option Nat :=
  (List.range (s.length + 1)).find? (fun i => decide ((s.drop i).take pat.length = pat))

/-- Removal of the first occurrence of `pat` from `s`, phrased from the
match position: keep the part before the first match, skip `pat.length`
characters, keep the rest. -/
def specRemoveFirst (pat s : List Char) : List Char :=
  match firstMatchIdx pat s with
  | some i => s.take i ++ s.drop (i + pat.length)
  | none => s

/-- Removal of a leading `www.` only, as the spec sentence for the display
function reads: strip `www.` when it is a prefix of the hostname, otherwise
leave the hostname unchanged. -/
def stripLeadingWWW (h : List Char) : List Char :=
  if h.take wwwDot.length = wwwDot then h.drop wwwDot.length else h

/-- Hostname `foo.www.com`, on which a leading-only strip and a
first-occurrence replace disagree. -/
def fooHost : List Char := ['f', 'o', 'o', '.', 'w', 'w', 'w', '.', 'c', 'o', 'm']

/-- URL `https://foo.www.com`, whose hostname is `foo.www.com`. -/
def fooUrl : List Char :=
  ['h', 't', 't', 'p', 's', ':', '/', '/', 'f', 'o', 'o', '.', 'w', 'w', 'w', '.', 'c', 'o', 'm']

/-- Oracle for the browser URL constructor on `fooUrl`: the parse succeeds
with hostname `foo.www.com`. -/
def fooHostOracle : List Char → Option (List Char) := fun _ => some fooHost

/-- Oracle for the browser URL constructor on a string that is not a URL:
the constructor throws. -/
def noHostOracle : List Char → Option (List Char) := fun _ => none

/-- The two filter modes of the filter store: all records, or an explicit
(`select`) id set. -/
inductive FilterMode
  | all
  | select
deriving Repr, DecidableEq

/-- The slice of an opportunity row read by the fetch filters: the row id
and the nullable `company_id` column. -/
structure OppRow where
  id : String
  company_id : Option String
deriving Repr, DecidableEq

/-- Translation of the filter application in `fetchData`
(src/hooks/use-opportunities.ts, lines 40-59): `in('company_id', ids)` is
added to the query only when the company mode is `select` AND the selection
is non-empty, and likewise `in('id', ids)` for the opportunity dimension;
the `in` filter keeps the rows whose column value is one of the given ids
(a row with a null `company_id` matches none of them). -/
def fetchDataFilter (rows : List OppRow) (companyMode : FilterMode)
    (selectedCompanyIds : List String) (opportunityMode : FilterMode)
    (selectedOpportunityIds : List String) : List OppRow :=
  let afterCompany :=
    if companyMode = FilterMode.select ∧ selectedCompanyIds.length > 0 then
      rows.filter (fun r =>
        match r.company_id with
        | some c => selectedCompanyIds.contains c
        | none => false)
    else rows
  if opportunityMode = FilterMode.select ∧ selectedOpportunityIds.length > 0 then
    afterCompany.filter (fun r => selectedOpportunityIds.contains r.id)
  else afterCompany

/-- Sample opportunity row used by concrete filter theorems. -/
def sampleRow : OppRow := { id := "o1", company_id := some "c1" }

/-- An optimistic patch `{id, field, value}` as dispatched by `updateField`
to the `useOptimistic` reducer.  Records are JavaScript objects, modelled
as total maps from property names to values of an abstract type `V`
(`unknown` in the source); the row id is the value stored at property
`id`. -/
structure Patch (V : Type) where
  id : V
  field : String
  value : V

/-- Translation of the `useOptimistic` reducer of the table views
(src/unnamed/part_001 lines 99-107, src/unnamed/part_002 lines 112-120):
map over the list, and spread each record whose `id` property equals the
patch id with the patched property set to the new value; every other record
passes through unchanged. -/
def optimisticReducer {V : Type} [DecidableEq V] (state : List (String → V))
    (update : Patch V) : List (String → V) :=
  state.map (fun opp =>
    if opp "id" = update.id then
      fun k => if k = update.field then update.value else opp k
    else opp)

/-- One statement of `updateField`, in source order. -/
inductive EditStep
  | optimisticApply
  | persistUpdate
  | backgroundRefetch
  | clearEditing
deriving Repr, DecidableEq

/-- Statement order of `updateField` (src/unnamed/part_001 lines 145-164):
dispatch the optimistic patch, await the database update, trigger the
background refetch, clear the editing state. -/
def updateFieldSteps : List EditStep :=
  [EditStep.optimisticApply, EditStep.persistUpdate,
   EditStep.backgroundRefetch, EditStep.clearEditing]

/-- Concrete record for the id-overwrite counterexample: every property of
the row, `id` included, holds the string `42`. -/
def rec42 : String → String := fun _ => "42"

/-- First pending edit of the counterexample: set the `id` property of row
`42` to `99`. -/
def patchId99 : Patch String := { id := "42", field := "id", value := "99" }

/-- Second edit to the same row and the same field: set `id` to `77`. -/
def patchId77 : Patch String := { id := "42", field := "id", value := "77" }

/-- Row for the last-write-wins witness: every property holds `1`. -/
def rowOne : String → String := fun _ => "1"

/-- First status edit of the witness. -/
def patchStatusA : Patch String := { id := "1", field := "status", value := "a" }

/-- Second status edit of the witness. -/
def patchStatusB : Patch String := { id := "1", field := "status", value := "b" }

/-- Attachment metadata as the modal holds it: the row id and the blob
path. -/
structure AttachmentRec where
  id : String
  file_path : String
deriving Repr, DecidableEq

/-- One network call of `handleDeleteAttachment`, tagged with the outcome
the external service returned.  The supabase client reports failure inside
the resolved value rather than by throwing, so a failed call does not stop
the handler. -/
inductive DeleteStep
  | blobRemove (ok : Bool)
  | metaDelete (ok : Bool)
deriving Repr, DecidableEq

/-- Translation of `handleDeleteAttachment` (src/unnamed/part_000 lines
183-187; same shape in
src/components/dashboard/opportunity-detail-modal.tsx lines 66-74): remove
the blob, delete the metadata row, and filter the attachment out of the
rendered list, inspecting neither call result.  `blobOk` and `metaOk` are
the outcomes the storage and record services return. -/
def handleDeleteAttachment (blobOk metaOk : Bool) (attachments : List AttachmentRec)
    (attachment : AttachmentRec) : List DeleteStep × List AttachmentRec :=
  ([DeleteStep.blobRemove blobOk, DeleteStep.metaDelete metaOk],
   attachments.filter (fun a => a.id != attachment.id))

/-- Attachment used by the delete witness. -/
def attA : AttachmentRec := { id := "a1", file_path := "opp1/a1.png" }

/-- Second attachment used by the delete witness. -/
def attB : AttachmentRec := { id := "a2", file_path := "opp1/a2.pdf" }

/-- One step of `handleFileUpload`, in the order the statements run. -/
inductive UploadStep
  | blobUpload
  | metaInsert
  | refreshList
deriving Repr, DecidableEq

/-- Translation of `handleFileUpload` (src/unnamed/part_000 lines 142-181):
upload the blob first; when the upload reports an error the handler throws
into its catch block before the metadata insert; otherwise insert the
metadata row, and when that also succeeds refresh the attachment list.
`uploadErr` and `dbErr` say whether the respective call reported an
error. -/
def handleFileUpload (uploadErr dbErr : Bool) : List UploadStep :=
  if uploadErr then [UploadStep.blobUpload]
  else if dbErr then [UploadStep.blobUpload, UploadStep.metaInsert]
  else [UploadStep.blobUpload, UploadStep.metaInsert, UploadStep.refreshList]

/-- Full state of the persisted filter store (src/unnamed/part_003): the
sidebar flag, the two filter dimensions, and the column-width map. -/
structure FilterState where
  sidebarCollapsed : Bool
  opportunityMode : FilterMode
  selectedOpportunityIds : List String
  companyMode : FilterMode
  selectedCompanyIds : List String
  columnWidths : String → Nat

/-- Translation of the `clearFilters` action (src/unnamed/part_003 lines
78-83): the zustand `set` shallow-merges the four given fields into the
state, leaving every other field as it was. -/
def clearFilters (s : FilterState) : FilterState :=
  { s with
    opportunityMode := FilterMode.all
    selectedOpportunityIds := []
    companyMode := FilterMode.all
    selectedCompanyIds := [] }

theorem jsIndexOf_ge_neg_one (s : List Char) (c : Char) : -1 ≤ jsIndexOf s c := by
  induction s with
  | nil => simp [jsIndexOf]
  | cons a rest ih =>
    simp only [jsIndexOf]
    split
    · omega
    · split <;> omega

theorem jsIndexOf_eq_neg_one_iff (s : List Char) (c : Char) :
    jsIndexOf s c = -1 ↔ c ∉ s := by
  induction s with
  | nil => simp [jsIndexOf]
  | cons a rest ih =>
    simp only [jsIndexOf, List.mem_cons]
    by_cases hac : a = c
    · simp [hac]
    · have hne : ¬ c = a := fun h => hac h.symm
      by_cases hr : jsIndexOf rest c = -1
      · simp [hac, hr, hne, ih.mp hr]
      · have := jsIndexOf_ge_neg_one rest c
        rw [if_neg hac, if_neg hr]
        constructor
        · intro h; omega
        · intro h
          exact absurd (ih.mpr (fun hm => h (Or.inr hm))) hr

theorem jsIndexOf_first (s : List Char) (c : Char) (i : Nat) (hi : s[i]? = some c)
    (hfirst : ∀ j, j < i → s[j]? ≠ some c) : jsIndexOf s c = i := by
  induction s generalizing i with
  | nil => simp at hi
  | cons a rest ih =>
    cases i with
    | zero =>
      simp at hi
      simp [jsIndexOf, hi]
    | succ i' =>
      have ha : ¬ a = c := by
        have h0 := hfirst 0 (Nat.succ_pos i')
        simp at h0
        exact h0
      have hi' : rest[i']? = some c := by simpa using hi
      have hfirst' : ∀ j, j < i' → rest[j]? ≠ some c := by
        intro j hj
        have := hfirst (j + 1) (by omega)
        simpa using this
      have hrec := ih i' hi' hfirst'
      simp only [jsIndexOf, if_neg ha, hrec]
      have : ((i' : Int)) ≠ -1 := by omega
      rw [if_neg this]
      push_cast
      ring

theorem jsIndexOf_take_not_mem (s : List Char) (c : Char) :
    c ∉ s.take (jsIndexOf s c).toNat := by
  induction s with
  | nil => simp
  | cons a rest ih =>
    simp only [jsIndexOf]
    by_cases hac : a = c
    · simp [hac]
    · rw [if_neg hac]
      by_cases hr : jsIndexOf rest c = -1
      · simp [hr]
      · rw [if_neg hr]
        have h0 := jsIndexOf_ge_neg_one rest c
        have htn : (jsIndexOf rest c + 1).toNat = (jsIndexOf rest c).toNat + 1 := by omega
        rw [htn, List.take_succ_cons, List.mem_cons]
        rintro (h | h)
        · exact hac h.symm
        · exact ih h

theorem jsIndexOf_lt_length (s : List Char) (c : Char) :
    jsIndexOf s c < (s.length : Int) := by
  induction s with
  | nil => simp [jsIndexOf]
  | cons a rest ih =>
    simp only [jsIndexOf, List.length_cons]
    split
    · push_cast; omega
    · split <;> push_cast <;> omega

theorem jsIndexOf_append_cons (l r : List Char) (c : Char) (h : c ∉ l) :
    jsIndexOf (l ++ c :: r) c = l.length := by
  induction l with
  | nil => simp [jsIndexOf]
  | cons a l' ih =>
    have ha : ¬ a = c := by
      intro e; exact h (by simp [e])
    have h' : c ∉ l' := fun hm => h (List.mem_cons_of_mem _ hm)
    simp only [List.cons_append, jsIndexOf, if_neg ha, List.append_eq]
    rw [ih h']
    have hne : ((l'.length : Int)) ≠ -1 := by omega
    rw [if_neg hne]
    simp only [List.length_cons]
    push_cast
    ring

/-- C1: for every input string `s`, `parseDemoLink` splits at the first `|`
when that occurrence lies at an index `i` with `0 < i < length s - 1`
(label is the part before `i`, url the part after), and otherwise (no `|`,
or the first `|` at index 0 or at the last index) returns an empty label
with the whole unmodified input as url. -/
theorem parseDemoLink_first_pipe_split (s : List Char) :
    (∀ i : Nat, s[i]? = some '|' → (∀ j, j < i → s[j]? ≠ some '|') →
      parseDemoLink s =
        if 0 < i ∧ i < s.length - 1
        then { label := s.take i, url := s.drop (i + 1) }
        else { label := [], url := s }) ∧
    ('|' ∉ s → parseDemoLink s = { label := [], url := s }) := by
  constructor
  · intro i hi hfirst
    have hIdx : jsIndexOf s '|' = i := jsIndexOf_first s '|' i hi hfirst
    have hlen : i < s.length := by
      rcases List.getElem?_eq_some.mp hi with ⟨h, _⟩
      exact h
    by_cases hc : 0 < i ∧ i < s.length - 1
    · rw [if_pos hc]
      have hcI : jsIndexOf s '|' > 0 ∧ jsIndexOf s '|' < (s.length : Int) - 1 := by
        rw [hIdx]; omega
      rw [hIdx] at hcI
      simp only [parseDemoLink, hIdx, Int.toNat_natCast, if_pos hcI]
    · rw [if_neg hc]
      have hcI : ¬ (jsIndexOf s '|' > 0 ∧ jsIndexOf s '|' < (s.length : Int) - 1) := by
        rw [hIdx]; omega
      simp only [parseDemoLink, if_neg hcI]
  · intro h
    have hIdx : jsIndexOf s '|' = -1 := (jsIndexOf_eq_neg_one_iff s '|').mpr h
    have hcI : ¬ (jsIndexOf s '|' > 0 ∧ jsIndexOf s '|' < (s.length : Int) - 1) := by
      rw [hIdx]; omega
    simp only [parseDemoLink, if_neg hcI]

/-- Witness for C1: the splitting branch at `a|b` (first pipe at index 1)
and the fallback branch at the pipe-free string `xy`. -/
theorem parseDemoLink_first_pipe_split_witness :
    parseDemoLink ['a', '|', 'b'] = { label := ['a'], url := ['b'] } ∧
    parseDemoLink ['x', 'y'] = { label := [], url := ['x', 'y'] } := by
  constructor
  · rw [(parseDemoLink_first_pipe_split ['a', '|', 'b']).1 1 (by decide)
      (fun j hj => by
        have : j = 0 := by omega
        subst this
        decide)]
    decide
  · exact (parseDemoLink_first_pipe_split ['x', 'y']).2 (by decide)

/-- C9: the record returned by `parseDemoLink` never carries the separator
in its label, and whenever the label is non-empty the url is non-empty as
well. -/
theorem parseDemoLink_result_invariant (s : List Char) :
    '|' ∉ (parseDemoLink s).label ∧
    ((parseDemoLink s).label ≠ [] → (parseDemoLink s).url ≠ []) := by
  by_cases hc : jsIndexOf s '|' > 0 ∧ jsIndexOf s '|' < (s.length : Int) - 1
  · simp only [parseDemoLink, if_pos hc]
    refine ⟨jsIndexOf_take_not_mem s '|', fun _ hnil => ?_⟩
    rw [List.drop_eq_nil_iff] at hnil
    omega
  · simp only [parseDemoLink, if_neg hc]
    exact ⟨by simp, fun h => absurd rfl h⟩

/-- Witness for C9 at the input `a|b`. -/
theorem parseDemoLink_result_invariant_witness :
    '|' ∉ (parseDemoLink ['a', '|', 'b']).label ∧
    ((parseDemoLink ['a', '|', 'b']).label ≠ [] →
      (parseDemoLink ['a', '|', 'b']).url ≠ []) :=
  parseDemoLink_result_invariant ['a', '|', 'b']

/-- Counterexample to C2 as stated: with label `a` (trimmed non-empty, no
pipe) and the empty url, serialization gives `a|`, whose parse is
`{label := [], url := a|}`, not the original record.  The claimed law
therefore needs a precondition on the url. -/
theorem roundtrip_fails_on_empty_url :
    jsTrim ['a'] ≠ [] ∧ '|' ∉ (['a'] : List Char) ∧
    parseDemoLink (serializeDemoLink { label := ['a'], url := [] }) ≠
      { label := ['a'], url := [] } := by
  decide

/-- C2 as amended: the round-trip law holds for records whose label has a
non-empty trimmed form and contains no pipe, provided additionally that
the url is non-empty. -/
theorem parse_serialize_roundtrip (l : DemoLink) (hTrim : jsTrim l.label ≠ [])
    (hPipe : '|' ∉ l.label) (hUrl : l.url ≠ []) :
    parseDemoLink (serializeDemoLink l) = l := by
  obtain ⟨lab, url⟩ := l
  simp only at hTrim hPipe hUrl
  have hlab : lab ≠ [] := by
    intro h
    rw [h] at hTrim
    exact hTrim (by simp [jsTrim])
  have hser : serializeDemoLink ⟨lab, url⟩ = lab ++ '|' :: url := by
    simp only [serializeDemoLink]
    rw [if_pos ⟨hlab, hTrim⟩]
  rw [hser]
  have hidx : jsIndexOf (lab ++ '|' :: url) '|' = lab.length :=
    jsIndexOf_append_cons lab url '|' hPipe
  have hlen : (lab ++ '|' :: url).length = lab.length + url.length + 1 := by
    simp [List.length_append]
    omega
  have hlabpos : 0 < lab.length := List.length_pos.mpr hlab
  have hurlpos : 0 < url.length := List.length_pos.mpr hUrl
  have hcI : jsIndexOf (lab ++ '|' :: url) '|' > 0 ∧
      jsIndexOf (lab ++ '|' :: url) '|' < ((lab ++ '|' :: url).length : Int) - 1 := by
    rw [hidx, hlen]; push_cast; omega
  rw [hidx] at hcI
  simp only [parseDemoLink, hidx, Int.toNat_natCast, if_pos hcI]
  have htake : (lab ++ '|' :: url).take lab.length = lab := List.take_left lab _
  have hsplit : lab ++ '|' :: url = (lab ++ ['|']) ++ url := by simp
  have hdrop : (lab ++ '|' :: url).drop (lab.length + 1) = url := by
    rw [hsplit]
    have hl : (lab ++ ['|']).length = lab.length + 1 := by simp
    rw [← hl]
    exact List.drop_left _ _
  rw [htake, hdrop]

/-- Witness for the amended C2 at the record with label `a` and url `b`. -/
theorem parse_serialize_roundtrip_witness :
    jsTrim ['a'] ≠ [] ∧ '|' ∉ (['a'] : List Char) ∧ (['b'] : List Char) ≠ [] ∧
    parseDemoLink (serializeDemoLink { label := ['a'], url := ['b'] }) =
      { label := ['a'], url := ['b'] } :=
  ⟨by decide, by decide, by decide,
    parse_serialize_roundtrip ⟨['a'], ['b']⟩ (by decide) (by decide) (by decide)⟩

theorem firstMatchIdx_nil (pat : List Char) (hpat : pat ≠ []) :
    firstMatchIdx pat [] = none := by
  have h1 : List.range 1 = [0] := by decide
  simp [firstMatchIdx, h1, List.find?_cons, hpat]

theorem firstMatchIdx_cons_of_head_match (pat : List Char) (a : Char) (rest : List Char)
    (h : (a :: rest).take pat.length = pat) :
    firstMatchIdx pat (a :: rest) = some 0 := by
  simp only [firstMatchIdx, List.length_cons]
  rw [List.range_succ_eq_map]
  apply List.find?_cons_of_pos
  simp [h]

theorem firstMatchIdx_cons_of_head_miss (pat : List Char) (a : Char) (rest : List Char)
    (h : (a :: rest).take pat.length ≠ pat) :
    firstMatchIdx pat (a :: rest) = Option.map Nat.succ (firstMatchIdx pat rest) := by
  simp only [firstMatchIdx, List.length_cons]
  rw [List.range_succ_eq_map]
  rw [List.find?_cons_of_neg _ (by simp [h])]
  rw [List.find?_map]
  congr 1

theorem jsReplaceOnce_removes_first (pat : List Char) (hpat : pat ≠ []) :
    ∀ s, jsReplaceOnce pat [] s = specRemoveFirst pat s := by
  intro s
  induction s with
  | nil => simp [jsReplaceOnce, specRemoveFirst, firstMatchIdx_nil pat hpat]
  | cons a rest ih =>
    by_cases hh : (a :: rest).take pat.length = pat
    · simp only [jsReplaceOnce, if_pos hh]
      rw [specRemoveFirst, firstMatchIdx_cons_of_head_match pat a rest hh]
      simp
    · simp only [jsReplaceOnce, if_neg hh]
      rw [ih]
      rw [specRemoveFirst, specRemoveFirst, firstMatchIdx_cons_of_head_miss pat a rest hh]
      cases hfm : firstMatchIdx pat rest with
      | none => simp
      | some i =>
        simp only [Option.map_some']
        have hidx : i + 1 + pat.length = (i + pat.length) + 1 := by omega
        rw [List.take_succ_cons, hidx, List.drop_succ_cons]
        simp [List.cons_append]

/-- Counterexample to C8 as stated: for the unlabeled link with url
`https://foo.www.com` (hostname `foo.www.com`), the code returns `foo.com`
(it replaces the first occurrence of `www.` anywhere in the hostname),
while stripping only a leading `www.` would leave the hostname unchanged. -/
theorem display_not_leading_strip_only :
    fooHostOracle fooUrl = some fooHost ∧
    getDemoLinkDisplay fooHostOracle { label := [], url := fooUrl } ≠ stripLeadingWWW fooHost := by
  decide

/-- C8 as amended: the display function returns the label when its trimmed
form is non-empty; otherwise, when the URL parses (the oracle `host`
returns a hostname), it returns the hostname with the first occurrence of
the substring `www.` removed, wherever it occurs, not only a leading one;
when the URL does not parse it returns the raw url unchanged. -/
theorem getDemoLinkDisplay_characterization (host : List Char → Option (List Char))
    (link : DemoLink) :
    (jsTrim link.label ≠ [] → getDemoLinkDisplay host link = link.label) ∧
    (jsTrim link.label = [] → host link.url = none →
      getDemoLinkDisplay host link = link.url) ∧
    (∀ h, jsTrim link.label = [] → host link.url = some h →
      getDemoLinkDisplay host link = specRemoveFirst wwwDot h) := by
  have hw : wwwDot ≠ [] := by decide
  refine ⟨?_, ?_, ?_⟩
  · intro ht
    have hlab : link.label ≠ [] := by
      intro e
      rw [e] at ht
      exact ht (by simp [jsTrim])
    simp [getDemoLinkDisplay, hlab, ht]
  · intro ht hn
    have hcond : ¬ (link.label ≠ [] ∧ jsTrim link.label ≠ []) := fun hc => hc.2 ht
    simp only [getDemoLinkDisplay, if_neg hcond, hn]
  · intro h ht hs
    have hcond : ¬ (link.label ≠ [] ∧ jsTrim link.label ≠ []) := fun hc => hc.2 ht
    simp only [getDemoLinkDisplay, if_neg hcond, hs]
    exact jsReplaceOnce_removes_first wwwDot hw h

/-- Witness for the amended C8: all three branches at concrete inputs. -/
theorem getDemoLinkDisplay_characterization_witness :
    getDemoLinkDisplay fooHostOracle { label := ['D'], url := fooUrl } = ['D'] ∧
    getDemoLinkDisplay noHostOracle { label := [], url := ['x'] } = ['x'] ∧
    getDemoLinkDisplay fooHostOracle { label := [], url := fooUrl } =
      specRemoveFirst wwwDot fooHost :=
  ⟨(getDemoLinkDisplay_characterization fooHostOracle ⟨['D'], fooUrl⟩).1 (by decide),
   (getDemoLinkDisplay_characterization noHostOracle ⟨[], ['x']⟩).2.1 (by decide) rfl,
   (getDemoLinkDisplay_characterization fooHostOracle ⟨[], fooUrl⟩).2.2 fooHost (by decide) rfl⟩

/-- Counterexample to C3 as stated: company mode `select` with an empty
selection skips the `in` filter entirely, so one stored row yields one
fetched row, not zero. -/
theorem select_empty_filter_returns_all :
    fetchDataFilter [sampleRow] FilterMode.select [] FilterMode.all [] = [sampleRow] ∧
    fetchDataFilter [sampleRow] FilterMode.select [] FilterMode.all [] ≠ [] := by
  constructor
  · simp [fetchDataFilter]
  · simp [fetchDataFilter]

/-- C3 as amended: company mode `select` with an empty selection behaves
exactly like mode `all` (no company filter is applied, every record is
returned), and mode `all` ignores the selection list entirely whatever its
contents. -/
theorem fetchDataFilter_company_modes (rows : List OppRow) (m : FilterMode)
    (oppIds ids ids' : List String) :
    fetchDataFilter rows FilterMode.select [] m oppIds =
      fetchDataFilter rows FilterMode.all ids m oppIds ∧
    fetchDataFilter rows FilterMode.all ids m oppIds =
      fetchDataFilter rows FilterMode.all ids' m oppIds := by
  constructor <;> simp [fetchDataFilter]

/-- C4: the optimistic merge keeps the list length; at every position, a
record whose id equals the patch id gets exactly the patched field set to
the patched value with every other field unchanged, and a record with a
different id is unchanged in every field; and in `updateField` the
optimistic apply strictly precedes the persist request, so the patched list
is rendered before any network round trip completes. -/
theorem optimisticReducer_pointwise {V : Type} [DecidableEq V]
    (state : List (String → V)) (u : Patch V) (k : Nat) (f : String) :
    (optimisticReducer state u).length = state.length ∧
    ((optimisticReducer state u)[k]?.map (fun o => o f)) =
      (state[k]?.map (fun opp =>
        if opp "id" = u.id ∧ f = u.field then u.value else opp f)) ∧
    updateFieldSteps.indexOf EditStep.optimisticApply <
      updateFieldSteps.indexOf EditStep.persistUpdate := by
  refine ⟨by simp [optimisticReducer], ?_, by decide⟩
  simp only [optimisticReducer, List.getElem?_map]
  cases hk : state[k]? with
  | none => simp
  | some opp =>
    simp only [Option.map_some']
    by_cases hid : opp "id" = u.id
    · by_cases hf : f = u.field
      · simp [hid, hf]
      · simp [hid, hf]
    · simp [hid]

/-- Counterexample to C5 as stated: when the patched field is the `id`
property itself, the first merge changes the id that the second merge
matches on, so merging p1 then p2 (row keeps value `99`) differs from
merging p2 alone (row gets `77`). -/
theorem double_merge_differs_on_id_field :
    patchId99.id = patchId77.id ∧ patchId99.field = patchId77.field ∧
    optimisticReducer (optimisticReducer [rec42] patchId99) patchId77 ≠
      optimisticReducer [rec42] patchId77 := by
  refine ⟨rfl, rfl, ?_⟩
  intro h
  have h0 := congrArg (fun l => l.map (fun o => o "id")) h
  simp [optimisticReducer, rec42, patchId99, patchId77] at h0

/-- C5 as amended: merging two patches with the same id and the same field
is last-write-wins (the composite merge equals the merge of the second
patch alone), provided the patched field is not the `id` property
itself. -/
theorem optimisticReducer_last_write_wins {V : Type} [DecidableEq V]
    (state : List (String → V)) (p1 p2 : Patch V)
    (hid : p1.id = p2.id) (hf : p1.field = p2.field) (hnot : p2.field ≠ "id") :
    optimisticReducer (optimisticReducer state p1) p2 =
      optimisticReducer state p2 := by
  have hfid : ¬ ("id" = p1.field) := by
    intro e
    exact hnot (by rw [← hf]; exact e.symm)
  simp only [optimisticReducer, List.map_map]
  apply List.map_congr_left
  intro opp _
  simp only [Function.comp]
  by_cases h1 : opp "id" = p1.id
  · have h2 : opp "id" = p2.id := by rw [← hid]; exact h1
    rw [if_pos h1]
    rw [if_pos (show ((fun k => if k = p1.field then p1.value else opp k) "id") = p2.id by
      simp only [if_neg hfid]
      exact h2)]
    rw [if_pos h2]
    funext k
    by_cases hk : k = p2.field
    · simp [hk]
    · have hk1 : ¬ (k = p1.field) := by rw [hf]; exact hk
      simp [hk, hk1]
  · have h2 : ¬ (opp "id" = p2.id) := by rw [← hid]; exact h1
    rw [if_neg h1, if_neg h2]

/-- Witness for the amended C5 at two concrete status edits to row `1`. -/
theorem optimisticReducer_last_write_wins_witness :
    patchStatusA.id = patchStatusB.id ∧ patchStatusA.field = patchStatusB.field ∧
    patchStatusB.field ≠ "id" ∧
    optimisticReducer (optimisticReducer [rowOne] patchStatusA) patchStatusB =
      optimisticReducer [rowOne] patchStatusB :=
  ⟨rfl, rfl, by decide,
    optimisticReducer_last_write_wins [rowOne] patchStatusA patchStatusB rfl rfl (by decide)⟩

/-- C6: the metadata delete is attempted and the attachment disappears from
the rendered list whatever the blob-remove outcome: the performed steps
always contain the metadata delete, every record still rendered has a
different id, and the rendered list does not depend on the blob-remove
outcome at all. -/
theorem handleDeleteAttachment_unconditional (b b' m : Bool)
    (attachments : List AttachmentRec) (attachment : AttachmentRec) :
    DeleteStep.metaDelete m ∈ (handleDeleteAttachment b m attachments attachment).1 ∧
    (∀ a ∈ (handleDeleteAttachment b m attachments attachment).2, a.id ≠ attachment.id) ∧
    (handleDeleteAttachment b m attachments attachment).2 =
      (handleDeleteAttachment b' m attachments attachment).2 := by
  refine ⟨by simp [handleDeleteAttachment], ?_, rfl⟩
  intro a ha
  simp only [handleDeleteAttachment, List.mem_filter, bne_iff_ne, ne_eq] at ha
  exact ha.2

/-- Witness for C6: deleting `attA` with a failed blob-remove still deletes
the metadata row and removes `attA` from the rendered list. -/
theorem handleDeleteAttachment_unconditional_witness :
    DeleteStep.metaDelete true ∈ (handleDeleteAttachment false true [attA, attB] attA).1 ∧
    (∀ a ∈ (handleDeleteAttachment false true [attA, attB] attA).2, a.id ≠ attA.id) ∧
    (handleDeleteAttachment false true [attA, attB] attA).2 =
      (handleDeleteAttachment true true [attA, attB] attA).2 :=
  handleDeleteAttachment_unconditional false true true [attA, attB] attA

/-- C7: the blob write always runs first, a failed blob write aborts the
handler with no metadata insert, and a metadata insert only ever runs after
a successful blob write. -/
theorem handleFileUpload_blob_first (uploadErr dbErr : Bool) :
    handleFileUpload true dbErr = [UploadStep.blobUpload] ∧
    (UploadStep.metaInsert ∈ handleFileUpload uploadErr dbErr → uploadErr = false) ∧
    (∃ rest, handleFileUpload uploadErr dbErr = UploadStep.blobUpload :: rest) := by
  refine ⟨rfl, ?_, ?_⟩
  · intro hmem
    cases uploadErr
    · rfl
    · simp [handleFileUpload] at hmem
  · cases uploadErr
    · cases dbErr
      · exact ⟨[UploadStep.metaInsert, UploadStep.refreshList], rfl⟩
      · exact ⟨[UploadStep.metaInsert], rfl⟩
    · exact ⟨[], rfl⟩

/-- Witness for C7 at concrete outcomes: a failed upload produces only the
blob step, and a fully successful run starts with the blob step. -/
theorem handleFileUpload_blob_first_witness :
    handleFileUpload true false = [UploadStep.blobUpload] ∧
    (UploadStep.metaInsert ∈ handleFileUpload false false → false = false) ∧
    (∃ rest, handleFileUpload false false = UploadStep.blobUpload :: rest) :=
  handleFileUpload_blob_first false false

/-- C10: `clearFilters` resets both modes to `all` and both selections to
empty, and leaves the sidebar-collapsed flag and the column widths
untouched. -/
theorem clearFilters_resets_and_preserves (s : FilterState) :
    (clearFilters s).opportunityMode = FilterMode.all ∧
    (clearFilters s).selectedOpportunityIds = [] ∧
    (clearFilters s).companyMode = FilterMode.all ∧
    (clearFilters s).selectedCompanyIds = [] ∧
    (clearFilters s).sidebarCollapsed = s.sidebarCollapsed ∧
    (clearFilters s).columnWidths = s.columnWidths :=
  ⟨rfl, rfl, rfl, rfl, rfl, rfl⟩

end Helios
